import Mathlib

/-!
Verification of the interactive-design-system backend (src/server.py and the
identical helpers in src/showcase/server.py).

Strings are modelled as lists of characters.  Python string operations used by
the source are embedded as executable Lean functions:

* substring test (`in`)            → `isSubstr`
* `str.strip()`                    → `strip` (drops Python whitespace at both ends)
* `str.lower()`                    → `lowerStr` (charwise `Char.toLower`)
* `re.sub(r'```html\n?', '', s)`   → `subFenceHtml` (leftmost, non-overlapping)
* `re.sub(r'```\n?', '', s)`       → `subFence`
* `str.endswith(t)`                → `List.isSuffixOf`

The LLM gateway (`call_llm` via litellm) is an external collaborator; it is
modelled as an oracle `gw : Nat → Option Str` giving the text returned by the
k-th gateway call of a request (`none` = the provider call raised).  The
filesystem directory of saved systems is modelled as `Store := Str → Option Str`.
-/

namespace IDS

/-- Strings as lists of characters. -/
abbrev Str := List Char

/-- The backtick character (code 96). -/
def bt : Char := Char.ofNat 96

/-- The literal pattern of a bare markdown fence marker. -/
def fenceP : Str := [bt, bt, bt]

/-- The literal pattern of an html-tagged markdown fence opener. -/
def fenceHtmlP : Str := [bt, bt, bt, 'h', 't', 'm', 'l']

/-- Python whitespace characters stripped by `str.strip()` (ASCII range). -/
def pySpace (c : Char) : Bool :=
  c == ' ' || c == '\t' || c == '\n' || c == '\r' || c == Char.ofNat 11 || c == Char.ofNat 12

/-- Python `str.lower()`, charwise (the tags involved are ASCII). -/
def lowerStr (s : Str) : Str := s.map Char.toLower

/-- Drop trailing Python whitespace. -/
def stripEnd (s : Str) : Str := (s.reverse.dropWhile pySpace).reverse

/-- Python `str.strip()`: drop whitespace at both ends. -/
def strip (s : Str) : Str := (stripEnd s).dropWhile pySpace

/-- Python substring containment `pat in s`. -/
def isSubstr (pat : Str) : Str → Bool
  | [] => pat.isPrefixOf []
  | c :: rest => pat.isPrefixOf (c :: rest) || isSubstr pat rest

/-- Embedding of `re.sub(r'```\n?', '', s)`: scan left to right; at a match
remove the three backticks and one following newline if present, and continue
after the removed text; otherwise keep the character and advance. -/
def subFence : Str → Str
  | a :: b :: c :: r =>
    if a = bt ∧ b = bt ∧ c = bt then
      match r with
      | d :: r2 => if d = '\n' then subFence r2 else subFence (d :: r2)
      | [] => []
    else a :: subFence (b :: c :: r)
  | a :: r => a :: subFence r
  | [] => []

/-- Embedding of `re.sub(r'```html\n?', '', s)`, same scanning discipline. -/
def subFenceHtml : Str → Str
  | c1 :: c2 :: c3 :: c4 :: c5 :: c6 :: c7 :: r =>
    if c1 = bt ∧ c2 = bt ∧ c3 = bt ∧ c4 = 'h' ∧ c5 = 't' ∧ c6 = 'm' ∧ c7 = 'l' then
      match r with
      | d :: r2 => if d = '\n' then subFenceHtml r2 else subFenceHtml (d :: r2)
      | [] => []
    else c1 :: subFenceHtml (c2 :: c3 :: c4 :: c5 :: c6 :: c7 :: r)
  | a :: r => a :: subFenceHtml r
  | [] => []

/-- `clean_html` from src/server.py lines 49-57: if the text contains the
tagged opener, remove tagged then bare fence markers; else if it contains a
bare marker, remove bare markers; in every branch finish with `strip`. -/
def clean_html (content : Str) : Str :=
  if isSubstr fenceHtmlP content then strip (subFence (subFenceHtml content))
  else if isSubstr fenceP content then strip (subFence content)
  else strip content

/-- `clean_html` from src/showcase/server.py lines 49-57 (textually identical
implementation in the second source file). -/
def showcase_clean_html (content : Str) : Str :=
  if isSubstr fenceHtmlP content then strip (subFence (subFenceHtml content))
  else if isSubstr fenceP content then strip (subFence content)
  else strip content

/-- The closing root tag literal. -/
def closingHtml : Str := "</html>".data

/-- The closing body tag literal. -/
def closingBody : Str := "</body>".data

/-- The closing root tag followed by a newline (dead second disjunct of the
source's endswith check, kept faithfully). -/
def closingHtmlNl : Str := "</html>\n".data

/-- `is_html_complete` from src/server.py lines 60-71. -/
def is_html_complete (html : Str) : Bool :=
  let html_lower := strip (lowerStr html)
  (isSubstr closingHtml html_lower && isSubstr closingBody html_lower)
    && (closingHtml.isSuffixOf html_lower || closingHtmlNl.isSuffixOf html_lower)

/-- `get_continuation_context` from src/server.py lines 74-76. -/
def get_continuation_context (html : Str) (chars : Nat := 2000) : Str :=
  if html.length > chars then html.drop (html.length - chars) else html

/-- Gateway oracle: the text returned by the k-th LLM call of one request
(call 0 is the initial generation/edit call, call k ≥ 1 the k-th continuation);
none means the provider call raised an error. -/
abbrev Gateway := Nat → Option Str

/-- The flat systems directory, as a map from file name to file body. -/
abbrev Store := Str → Option Str

/-- Write (`some body`) or delete (`none`) one entry of the store. -/
def update (st : Store) (key : Str) (v : Option Str) : Store :=
  fun n => if n = key then v else st n

/-- The continuation loop of src/server.py lines 131-158 (and its textual copy
in edit_design_system, lines 221-248): while the accumulated text is not
complete and the attempt counter is below the maximum, increment the counter,
call the gateway, and append a newline plus the normalized continuation.
`fuel` is a structural bound; callers pass `maxC + 1 - attempts` so the
fuel-zero base case is never reached (each iteration raises `attempts` by one
and the loop body runs only while `attempts < maxC`).  A failed gateway call
aborts the loop, recorded as `Except.error` carrying the failing call index. -/
def contLoop (gw : Gateway) (maxC : Nat) : Nat → Str → Nat → Except Nat (Str × Nat)
  | 0, acc, attempts => .ok (acc, attempts)
  | fuel + 1, acc, attempts =>
    if is_html_complete acc then .ok (acc, attempts)
    else if attempts < maxC then
      match gw (attempts + 1) with
      | none => .error (attempts + 1)
      | some out => contLoop gw maxC fuel (acc ++ '\n' :: clean_html out) (attempts + 1)
    else .ok (acc, attempts)

/-- The continuation loop engine: initial gateway call, normalization, then
the continuation loop with max_continuations = 5 (src/server.py lines 125-158).
On success the result carries the final text and the number of continuation
attempts used; on a gateway failure, the index of the failing call. -/
def engine (gw : Gateway) : Except Nat (Str × Nat) :=
  match gw 0 with
  | none => .error 0
  | some first => contLoop gw 5 6 (clean_html first) 0

/-- Filename derivation of src/server.py line 166:
`f"{request.name.lower().replace(' ', '-')}.html"`. -/
def derive_file_name (name : Str) : Str :=
  (lowerStr name).map (fun c => if c = ' ' then '-' else c) ++ ".html".data

/-- `generate_design_system` (src/server.py lines 95-182), with HTTP plumbing
reduced to its effect: run the engine; on success write the text to the store
under the derived file name and answer fileName and content; if any gateway
call raised, the exception reaches the handler's except-block and the request
fails with HTTP 500, nothing having been written. -/
def generate_design_system (gw : Gateway) (store : Store) (name : Str) :
    Store × Except Nat (Str × Str) :=
  match engine gw with
  | .error _ => (store, .error 500)
  | .ok (txt, _) =>
    (update store (derive_file_name name) (some txt),
      .ok (derive_file_name name, txt))

/-- `edit_design_system` (src/server.py lines 184-270): 404 if the target file
is absent (checked before any LLM call); otherwise run the same engine (the
existing body only feeds the prompt, which the gateway oracle abstracts) and
overwrite the file; a raised gateway error becomes HTTP 500. -/
def edit_design_system (gw : Gateway) (store : Store) (fileName : Str) :
    Store × Except Nat (Str × Str) :=
  match store fileName with
  | none => (store, .error 404)
  | some _ =>
    match engine gw with
    | .error _ => (store, .error 500)
    | .ok (txt, _) => (update store fileName (some txt), .ok (fileName, txt))

/-- Name validation of src/server.py line 298:
`'/' in file_name or '\\' in file_name or '..' in file_name`. -/
def invalid_file_name (file_name : Str) : Bool :=
  isSubstr "/".data file_name || isSubstr "\\".data file_name
    || isSubstr "..".data file_name

/-- `delete_design_system` (src/server.py lines 293-317): 400 on a name with a
path separator or parent-directory sequence (before touching the store), else
404 if absent, else remove the file and answer the same file name. -/
def delete_design_system (store : Store) (file_name : Str) :
    Store × Except Nat Str :=
  if invalid_file_name file_name then (store, .error 400)
  else if (store file_name).isNone then (store, .error 404)
  else (update store file_name none, .ok file_name)

/-- Accumulated text after the initial call and the first n continuations with
gateway outputs f: the normalized first output followed by each normalized
continuation, each joined to the accumulator with exactly one newline. -/
def accAt (f : Nat → Str) : Nat → Str
  | 0 => clean_html (f 0)
  | n + 1 => accAt f n ++ '\n' :: clean_html (f (n + 1))

/-! Concrete fixtures used by the witness theorems. -/

/-- Gateway outputs for the two-call witness run: a truncated first answer,
then a completing continuation. -/
def wtOutputs : Nat → Str :=
  fun i => if i = 0 then "<html><body>hi".data else "</body></html>".data

/-- Gateway outputs for the never-complete witness run. -/
def wtStub : Nat → Str := fun _ => "x".data

/-- A one-call gateway whose first answer is already a complete document. -/
def wtGwComplete : Gateway := fun _ => some ("<html><body>ok</body></html>".data)

/-- A store holding the single file a.html. -/
def wtStore : Store :=
  fun n => if n = "a.html".data then some ("<html>".data) else none

/-- A store holding one file whose name contains a parent-directory sequence. -/
def wtStoreEvil : Store :=
  fun n => if n = "../evil".data then some ("<p>".data) else none

/-! Bridging lemmas between the executable string functions and the
prefix/suffix/infix relations. -/

theorem isSubstr_iff {pat : Str} : ∀ {s : Str}, isSubstr pat s = true ↔ pat <:+: s := by
  intro s
  induction s with
  | nil =>
    simp only [isSubstr, List.isPrefixOf_iff_prefix]
    constructor
    · intro h
      exact h.isInfix
    · rintro ⟨u, v, huv⟩
      have hu : u = [] := by
        cases u with
        | nil => rfl
        | cons x xs => simp at huv
      have hv : pat ++ v = [] := by simpa [hu] using huv
      have : pat = [] := by
        cases pat with
        | nil => rfl
        | cons x xs => simp at hv
      simp [this]
  | cons c rest ih =>
    simp only [isSubstr, Bool.or_eq_true, List.isPrefixOf_iff_prefix, ih,
      List.infix_cons_iff]

theorem dropWhile_idem (p : Char → Bool) : ∀ l : Str, (l.dropWhile p).dropWhile p = l.dropWhile p := by
  intro l
  induction l with
  | nil => rfl
  | cons c cs ih =>
    by_cases h : p c
    · simp [List.dropWhile, h, ih]
    · simp [List.dropWhile, h]

theorem dropWhile_eq_self_of_head {p : Char → Bool} :
    ∀ {l : Str}, (∀ a rest, l = a :: rest → p a = false) → l.dropWhile p = l := by
  intro l h
  cases l with
  | nil => rfl
  | cons a rest => simp [List.dropWhile, h a rest rfl]

theorem stripEnd_prefix_self (s : Str) : stripEnd s <+: s := by
  have h : s.reverse.dropWhile pySpace <:+ s.reverse := List.dropWhile_suffix pySpace
  have h2 := List.reverse_prefix.2 h
  simpa [stripEnd] using h2

theorem strip_suffix_stripEnd (s : Str) : strip s <:+ stripEnd s :=
  List.dropWhile_suffix pySpace

theorem strip_infix_self (s : Str) : strip s <:+: s :=
  ((strip_suffix_stripEnd s).isInfix).trans ((stripEnd_prefix_self s).isInfix)

theorem stripEnd_of_stripEnd_suffix {m x : Str} (hm : stripEnd m = m) (hx : x <:+ m) :
    stripEnd x = x := by
  have hrev : x.reverse <+: m.reverse := List.reverse_prefix.2 hx
  have hm' : m.reverse.dropWhile pySpace = m.reverse := by
    have : (stripEnd m).reverse = m.reverse := by rw [hm]
    simpa [stripEnd] using this
  have : x.reverse.dropWhile pySpace = x.reverse := by
    apply dropWhile_eq_self_of_head
    intro a rest hcons
    rcases hrev with ⟨t, ht⟩
    have hma : m.reverse = a :: (rest ++ t) := by rw [← ht, hcons]; simp
    by_contra hpa
    have hpa' : pySpace a = true := by
      cases hh : pySpace a with
      | false => exact absurd hh hpa
      | true => rfl
    have : m.reverse.dropWhile pySpace = (rest ++ t).dropWhile pySpace := by
      rw [hma, List.dropWhile_cons_of_pos hpa']
    rw [hm', hma] at this
    have hlen : (a :: (rest ++ t)).length ≤ (rest ++ t).length := by
      rw [this]
      exact (List.dropWhile_suffix pySpace).length_le
    simp at hlen
  simp [stripEnd, this]

theorem stripEnd_idem (s : Str) : stripEnd (stripEnd s) = stripEnd s :=
  stripEnd_of_stripEnd_suffix
    (by simp [stripEnd, dropWhile_idem]) (List.suffix_refl _)

theorem strip_idem (s : Str) : strip (strip s) = strip s := by
  have h1 : stripEnd (strip s) = strip s :=
    stripEnd_of_stripEnd_suffix (stripEnd_idem s) (strip_suffix_stripEnd s)
  rw [strip, h1, strip, dropWhile_idem]

theorem stripEnd_append_space {c : Char} (hc : pySpace c = true) (l : Str) :
    stripEnd (l ++ [c]) = stripEnd l := by
  simp [stripEnd, List.dropWhile_cons_of_pos hc]

theorem strip_append_space {c : Char} (hc : pySpace c = true) (l : Str) :
    strip (l ++ [c]) = strip l := by
  rw [strip, stripEnd_append_space hc, strip]

theorem not_space_cons_prefix_dropWhile {a : Char} (ha : pySpace a = true) (w : Str) :
    ∀ z : Str, ¬ (a :: w <+: z.dropWhile pySpace) := by
  intro z
  induction z with
  | nil => simp
  | cons c cs ih =>
    by_cases h : pySpace c
    · rw [List.dropWhile_cons_of_pos h]; exact ih
    · rw [List.dropWhile_cons_of_neg h]
      intro hpre
      rcases (List.cons_prefix_cons.1 hpre) with ⟨rfl, _⟩
      rw [ha] at h
      exact h rfl

theorem not_trailing_space_suffix_strip {v : Str} {a : Char} (ha : pySpace a = true)
    (s : Str) : ¬ ((v ++ [a]) <:+ strip s) := by
  intro h
  have hrev : (v ++ [a]).reverse <+: (strip s).reverse := List.reverse_prefix.2 h
  rw [List.reverse_append] at hrev
  have hstrip : (strip s).reverse = (strip s).reverse.dropWhile pySpace := by
    have h1 : stripEnd (strip s) = strip s :=
      stripEnd_of_stripEnd_suffix (stripEnd_idem s) (strip_suffix_stripEnd s)
    conv_lhs => rw [← h1]
    have h2 : (stripEnd (strip s)).reverse = (strip s).reverse.dropWhile pySpace := by
      simp [stripEnd]
    rw [h2]
  rw [hstrip] at hrev
  exact not_space_cons_prefix_dropWhile ha v.reverse _ (by simpa using hrev)

/-! Lemmas about the fence-removal scans. -/

theorem subFence_cons_cons {a b c : Char} {r : Str} :
    subFence (a :: b :: c :: r) =
      if a = bt ∧ b = bt ∧ c = bt then
        (match r with
          | d :: r2 => if d = '\n' then subFence r2 else subFence (d :: r2)
          | [] => [])
      else a :: subFence (b :: c :: r) := by
  rw [subFence.eq_def]
  rfl

theorem fenceP_prefix_iff {a b c : Char} {r : Str} :
    fenceP <+: (a :: b :: c :: r) ↔ (a = bt ∧ b = bt ∧ c = bt) := by
  show [bt, bt, bt] <+: _ ↔ _
  simp only [List.cons_prefix_cons, List.nil_prefix, and_true]
  constructor
  · rintro ⟨h1, h2, h3⟩
    exact ⟨h1.symm, h2.symm, h3.symm⟩
  · rintro ⟨h1, h2, h3⟩
    exact ⟨h1.symm, h2.symm, h3.symm⟩

theorem fenceP_prefix_head {x : Char} {l : Str} (h : fenceP <+: (x :: l)) :
    x = bt := by
  have h' : bt :: [bt, bt] <+: x :: l := h
  exact (List.cons_prefix_cons.1 h').1.symm

theorem not_fenceP_prefix_two {b c : Char} {r : Str} (h : ¬ (b = bt ∧ c = bt)) :
    ¬ fenceP <+: (b :: c :: r) := by
  intro hpre
  match r with
  | [] =>
    have := hpre.length_le
    simp [fenceP] at this
  | e :: r' =>
    have := (fenceP_prefix_iff).1 hpre
    exact h ⟨this.1, this.2.1⟩

theorem subFence_cons {a : Char} {s : Str} (h : ¬ fenceP <+: (a :: s)) :
    subFence (a :: s) = a :: subFence s := by
  match s with
  | [] => rfl
  | [b] => rfl
  | b :: c :: r =>
    rw [subFence_cons_cons, if_neg]
    intro hc
    exact h (fenceP_prefix_iff.2 hc)

theorem subFence_bt_nil : subFence [bt, bt, bt] = [] := by
  rw [subFence_cons_cons, if_pos ⟨rfl, rfl, rfl⟩]

theorem subFence_bt_nl {r2 : Str} : subFence (bt :: bt :: bt :: '\n' :: r2) = subFence r2 := by
  rw [subFence_cons_cons, if_pos ⟨rfl, rfl, rfl⟩]
  simp

theorem subFence_bt_other {d : Char} {r2 : Str} (hd : d ≠ '\n') :
    subFence (bt :: bt :: bt :: d :: r2) = subFence (d :: r2) := by
  rw [subFence_cons_cons, if_pos ⟨rfl, rfl, rfl⟩]
  simp [hd]

theorem not_bt_singleton_prefix_subFence {c : Char} (hc : c ≠ bt) (r : Str) :
    ¬ [bt] <+: subFence (c :: r) := by
  have hnp : ¬ fenceP <+: (c :: r) := fun hp => hc (fenceP_prefix_head hp)
  rw [subFence_cons hnp]
  intro hpre
  exact hc ((List.cons_prefix_cons.1 hpre).1.symm)

theorem not_btbt_prefix_subFence {b c : Char} {r : Str} (h : ¬ (b = bt ∧ c = bt)) :
    ¬ [bt, bt] <+: subFence (b :: c :: r) := by
  by_cases hb : b = bt
  · subst hb
    have hc : c ≠ bt := fun hcc => h ⟨rfl, hcc⟩
    have hnp : ¬ fenceP <+: (bt :: c :: r) := not_fenceP_prefix_two (fun hh => hc hh.2)
    rw [subFence_cons hnp]
    intro hpre
    have h2 := (List.cons_prefix_cons.1 hpre).2
    exact not_bt_singleton_prefix_subFence hc r h2
  · have hnp : ¬ fenceP <+: (b :: c :: r) := fun hp => hb (fenceP_prefix_head hp)
    rw [subFence_cons hnp]
    intro hpre
    exact hb ((List.cons_prefix_cons.1 hpre).1.symm)

theorem subFence_no_fence_aux : ∀ n, ∀ s : Str, s.length ≤ n → ¬ fenceP <:+: subFence s := by
  intro n
  induction n with
  | zero =>
    intro s hs hinf
    have hnil : s = [] := List.length_eq_zero.1 (Nat.le_zero.1 hs)
    subst hnil
    have := hinf.length_le
    simp [fenceP, subFence] at this
  | succ n ih =>
    intro s hs hinf
    match s with
    | [] =>
      have := hinf.length_le
      simp [fenceP, subFence] at this
    | [a] =>
      have := hinf.length_le
      simp [fenceP, subFence] at this
    | [a, b] =>
      have := hinf.length_le
      simp [fenceP, subFence] at this
    | a :: b :: c :: r =>
      by_cases hc : a = bt ∧ b = bt ∧ c = bt
      · obtain ⟨rfl, rfl, rfl⟩ := hc
        match r with
        | [] =>
          rw [subFence_bt_nil] at hinf
          have := hinf.length_le
          simp [fenceP] at this
        | d :: r2 =>
          by_cases hd : d = '\n'
          · subst hd
            rw [subFence_bt_nl] at hinf
            refine ih r2 ?_ hinf
            simp at hs
            omega
          · rw [subFence_bt_other hd] at hinf
            refine ih (d :: r2) ?_ hinf
            simp at hs ⊢
            omega
      · rw [subFence_cons (fun hp => hc (fenceP_prefix_iff.1 hp))] at hinf
        rcases List.infix_cons_iff.1 hinf with hpre | hinf2
        · have ha : a = bt := by
            have h' : bt :: [bt, bt] <+: a :: subFence (b :: c :: r) := hpre
            exact ((List.cons_prefix_cons.1 h').1).symm
          subst ha
          have hbc : ¬ (b = bt ∧ c = bt) := fun hh => hc ⟨rfl, hh.1, hh.2⟩
          have h2 : [bt, bt] <+: subFence (b :: c :: r) := by
            have h' : bt :: [bt, bt] <+: bt :: subFence (b :: c :: r) := hpre
            exact (List.cons_prefix_cons.1 h').2
          exact not_btbt_prefix_subFence hbc h2
        · refine ih (b :: c :: r) ?_ hinf2
          simp at hs ⊢
          omega

theorem subFence_no_fence (s : Str) : ¬ fenceP <:+: subFence s :=
  subFence_no_fence_aux s.length s (le_refl _)

theorem subFenceHtml_cons7 {c1 c2 c3 c4 c5 c6 c7 : Char} {r : Str} :
    subFenceHtml (c1 :: c2 :: c3 :: c4 :: c5 :: c6 :: c7 :: r) =
      if c1 = bt ∧ c2 = bt ∧ c3 = bt ∧ c4 = 'h' ∧ c5 = 't' ∧ c6 = 'm' ∧ c7 = 'l' then
        (match r with
          | d :: r2 => if d = '\n' then subFenceHtml r2 else subFenceHtml (d :: r2)
          | [] => [])
      else c1 :: subFenceHtml (c2 :: c3 :: c4 :: c5 :: c6 :: c7 :: r) := by
  rw [subFenceHtml.eq_def]
  rfl

theorem fenceHtmlP_prefix_iff {c1 c2 c3 c4 c5 c6 c7 : Char} {r : Str} :
    fenceHtmlP <+: (c1 :: c2 :: c3 :: c4 :: c5 :: c6 :: c7 :: r) ↔
      (c1 = bt ∧ c2 = bt ∧ c3 = bt ∧ c4 = 'h' ∧ c5 = 't' ∧ c6 = 'm' ∧ c7 = 'l') := by
  show [bt, bt, bt, 'h', 't', 'm', 'l'] <+: _ ↔ _
  simp only [List.cons_prefix_cons, List.nil_prefix, and_true]
  constructor
  · rintro ⟨h1, h2, h3, h4, h5, h6, h7⟩
    exact ⟨h1.symm, h2.symm, h3.symm, h4.symm, h5.symm, h6.symm, h7.symm⟩
  · rintro ⟨h1, h2, h3, h4, h5, h6, h7⟩
    exact ⟨h1.symm, h2.symm, h3.symm, h4.symm, h5.symm, h6.symm, h7.symm⟩

theorem subFenceHtml_cons {a : Char} {s : Str} (h : ¬ fenceHtmlP <+: (a :: s)) :
    subFenceHtml (a :: s) = a :: subFenceHtml s := by
  match s with
  | [] => rfl
  | [b] => rfl
  | [b, c] => rfl
  | [b, c, d] => rfl
  | [b, c, d, e] => rfl
  | [b, c, d, e, f] => rfl
  | b :: c :: d :: e :: f :: g :: r =>
    rw [subFenceHtml_cons7, if_neg]
    intro hc
    exact h (fenceHtmlP_prefix_iff.2 hc)

theorem subFenceHtml_open_nl (r : Str) :
    subFenceHtml (fenceHtmlP ++ '\n' :: r) = subFenceHtml r := by
  show subFenceHtml (bt :: bt :: bt :: 'h' :: 't' :: 'm' :: 'l' :: '\n' :: r) = _
  rw [subFenceHtml_cons7, if_pos ⟨rfl, rfl, rfl, rfl, rfl, rfl, rfl⟩]
  simp

theorem subFence_append :
    ∀ t u : Str, (∀ t2, t2 <:+ t → t2 ≠ [] → ¬ fenceP <+: (t2 ++ u)) →
      subFence (t ++ u) = t ++ subFence u := by
  intro t
  induction t with
  | nil => simp
  | cons a t' ih =>
    intro u h
    have h1 : ¬ fenceP <+: (a :: (t' ++ u)) := by
      have := h (a :: t') (List.suffix_refl _) (by simp)
      simpa using this
    rw [List.cons_append, subFence_cons h1,
      ih u (fun t2 ht2 hne => h t2 (ht2.trans (List.suffix_cons a t')) hne)]
    rfl

theorem subFenceHtml_append :
    ∀ t u : Str, (∀ t2, t2 <:+ t → t2 ≠ [] → ¬ fenceHtmlP <+: (t2 ++ u)) →
      subFenceHtml (t ++ u) = t ++ subFenceHtml u := by
  intro t
  induction t with
  | nil => simp
  | cons a t' ih =>
    intro u h
    have h1 : ¬ fenceHtmlP <+: (a :: (t' ++ u)) := by
      have := h (a :: t') (List.suffix_refl _) (by simp)
      simpa using this
    rw [List.cons_append, subFenceHtml_cons h1,
      ih u (fun t2 ht2 hne => h t2 (ht2.trans (List.suffix_cons a t')) hne)]
    rfl

theorem subFenceHtml_id (s : Str) (h : ∀ t2, t2 <:+ s → t2 ≠ [] → ¬ fenceHtmlP <+: t2) :
    subFenceHtml s = s := by
  have h2 := subFenceHtml_append s []
    (fun t2 ht2 hne => by simpa using h t2 ht2 hne)
  have h3 : subFenceHtml ([] : Str) = [] := rfl
  rw [List.append_nil, h3, List.append_nil] at h2
  exact h2

theorem suffix_append_cases {t2 x y : Str} (h : t2 <:+ x ++ y) :
    t2 <:+ y ∨ ∃ t3, t3 <:+ x ∧ t2 = t3 ++ y := by
  rcases h with ⟨w, hw⟩
  rcases List.append_eq_append_iff.1 hw with ⟨a', ha1, ha2⟩ | ⟨c', hc1, hc2⟩
  · exact Or.inr ⟨a', ⟨w, ha1.symm⟩, ha2⟩
  · exact Or.inl ⟨c', hc2.symm⟩

theorem fenceP_prefix_cases_nl {t3 rest : Str} (h : fenceP <+: (t3 ++ '\n' :: rest)) :
    fenceP <+: t3 := by
  match t3 with
  | [] =>
    exact absurd (fenceP_prefix_head (by simpa using h)) (by decide)
  | [x1] =>
    have h' : fenceP <+: x1 :: '\n' :: rest := by simpa using h
    have h2 : bt :: [bt, bt] <+: x1 :: '\n' :: rest := h'
    have h3 := (List.cons_prefix_cons.1 h2).2
    exact absurd ((List.cons_prefix_cons.1 h3).1) (by decide)
  | [x1, x2] =>
    have h' : fenceP <+: x1 :: x2 :: '\n' :: rest := by simpa using h
    exact absurd (fenceP_prefix_iff.1 h').2.2.symm (by decide)
  | x1 :: x2 :: x3 :: r3 =>
    have h' : fenceP <+: x1 :: x2 :: x3 :: (r3 ++ '\n' :: rest) := by simpa using h
    exact fenceP_prefix_iff.2 (fenceP_prefix_iff.1 h')

theorem fenceHtmlP_prefix_cases_nl {t3 rest : Str}
    (h : fenceHtmlP <+: (t3 ++ '\n' :: rest)) : fenceHtmlP <+: t3 := by
  match t3 with
  | [] =>
    have h' : bt :: [bt, bt, 'h', 't', 'm', 'l'] <+: '\n' :: rest := h
    exact absurd (List.cons_prefix_cons.1 h').1 (by decide)
  | [x1] =>
    have h2 : bt :: [bt, bt, 'h', 't', 'm', 'l'] <+: x1 :: '\n' :: rest := h
    have h3 := (List.cons_prefix_cons.1 h2).2
    exact absurd (List.cons_prefix_cons.1 h3).1 (by decide)
  | [x1, x2] =>
    have h' : bt :: bt :: bt :: ['h', 't', 'm', 'l'] <+: x1 :: x2 :: '\n' :: rest := h
    have h2 := (List.cons_prefix_cons.1 h').2
    have h3 := (List.cons_prefix_cons.1 h2).2
    exact absurd (List.cons_prefix_cons.1 h3).1 (by decide)
  | [x1, x2, x3] =>
    have h' : bt :: bt :: bt :: 'h' :: ['t', 'm', 'l'] <+: x1 :: x2 :: x3 :: '\n' :: rest := h
    have h2 := (List.cons_prefix_cons.1 h').2
    have h3 := (List.cons_prefix_cons.1 h2).2
    have h4 := (List.cons_prefix_cons.1 h3).2
    exact absurd (List.cons_prefix_cons.1 h4).1 (by decide)
  | [x1, x2, x3, x4] =>
    have h' : bt :: bt :: bt :: 'h' :: 't' :: ['m', 'l'] <+:
        x1 :: x2 :: x3 :: x4 :: '\n' :: rest := h
    have h2 := (List.cons_prefix_cons.1 h').2
    have h3 := (List.cons_prefix_cons.1 h2).2
    have h4 := (List.cons_prefix_cons.1 h3).2
    have h5 := (List.cons_prefix_cons.1 h4).2
    exact absurd (List.cons_prefix_cons.1 h5).1 (by decide)
  | [x1, x2, x3, x4, x5] =>
    have h' : bt :: bt :: bt :: 'h' :: 't' :: 'm' :: ['l'] <+:
        x1 :: x2 :: x3 :: x4 :: x5 :: '\n' :: rest := h
    have h2 := (List.cons_prefix_cons.1 h').2
    have h3 := (List.cons_prefix_cons.1 h2).2
    have h4 := (List.cons_prefix_cons.1 h3).2
    have h5 := (List.cons_prefix_cons.1 h4).2
    have h6 := (List.cons_prefix_cons.1 h5).2
    exact absurd (List.cons_prefix_cons.1 h6).1 (by decide)
  | [x1, x2, x3, x4, x5, x6] =>
    have h' : bt :: bt :: bt :: 'h' :: 't' :: 'm' :: 'l' :: ([] : Str) <+:
        x1 :: x2 :: x3 :: x4 :: x5 :: x6 :: '\n' :: rest := h
    have h2 := (List.cons_prefix_cons.1 h').2
    have h3 := (List.cons_prefix_cons.1 h2).2
    have h4 := (List.cons_prefix_cons.1 h3).2
    have h5 := (List.cons_prefix_cons.1 h4).2
    have h6 := (List.cons_prefix_cons.1 h5).2
    have h7 := (List.cons_prefix_cons.1 h6).2
    exact absurd (List.cons_prefix_cons.1 h7).1 (by decide)
  | x1 :: x2 :: x3 :: x4 :: x5 :: x6 :: x7 :: r7 =>
    have h' : fenceHtmlP <+: x1 :: x2 :: x3 :: x4 :: x5 :: x6 :: x7 :: (r7 ++ '\n' :: rest) := h
    exact fenceHtmlP_prefix_iff.2 (fenceHtmlP_prefix_iff.1 h')

theorem suffix_singleton {t2 : Str} {x : Char} (h : t2 <:+ [x]) :
    t2 = [] ∨ t2 = [x] := by
  rcases h with ⟨w, hw⟩
  match w with
  | [] => exact Or.inr (by simpa using hw)
  | y :: w' =>
    have h3 : y = x ∧ w' = [] ∧ t2 = [] := by simpa using hw
    exact Or.inl h3.2.2

theorem fenceP_prefix_fenceHtmlP : fenceP <+: fenceHtmlP := by
  exact ⟨['h', 't', 'm', 'l'], rfl⟩

/-! Lemmas about clean_html itself. -/

theorem clean_html_of_no_fence {s : Str} (h : ¬ fenceP <:+: s) :
    clean_html s = strip s := by
  rw [clean_html, if_neg, if_neg]
  · intro hh
    exact h (isSubstr_iff.1 hh)
  · intro hh
    exact h (fenceP_prefix_fenceHtmlP.isInfix.trans (isSubstr_iff.1 hh))

theorem clean_html_no_fence (s : Str) : ¬ fenceP <:+: clean_html s := by
  intro h
  rw [clean_html] at h
  split_ifs at h with h1 h2
  · exact subFence_no_fence _ (h.trans (strip_infix_self _))
  · exact subFence_no_fence _ (h.trans (strip_infix_self _))
  · exact (fun hh => h2 (isSubstr_iff.2 hh)) (h.trans (strip_infix_self _))

theorem clean_html_eq_strip_of_something (s : Str) : ∃ u, clean_html s = strip u := by
  rw [clean_html]
  split_ifs
  · exact ⟨_, rfl⟩
  · exact ⟨_, rfl⟩
  · exact ⟨_, rfl⟩

theorem clean_html_idem (s : Str) : clean_html (clean_html s) = clean_html s := by
  rw [clean_html_of_no_fence (clean_html_no_fence s)]
  obtain ⟨u, hu⟩ := clean_html_eq_strip_of_something s
  rw [hu, strip_idem]

theorem clean_html_roundtrip {t : Str} (ht : ¬ fenceP <:+: t) :
    clean_html (fenceHtmlP ++ '\n' :: (t ++ '\n' :: fenceP)) = strip t := by
  have hbranch : isSubstr fenceHtmlP (fenceHtmlP ++ '\n' :: (t ++ '\n' :: fenceP)) = true :=
    isSubstr_iff.2 (List.prefix_append _ _).isInfix
  rw [clean_html, if_pos hbranch, subFenceHtml_open_nl]
  have hid : subFenceHtml (t ++ '\n' :: fenceP) = t ++ '\n' :: fenceP := by
    apply subFenceHtml_id
    intro t2 ht2 hne hpre
    rcases suffix_append_cases ht2 with hy | ⟨t3, ht3, rfl⟩
    · have hlen : t2.length ≤ 4 := by
        have := hy.length_le
        simpa [fenceP] using this
      have := hpre.length_le
      simp [fenceHtmlP] at this
      omega
    · have h7 : fenceHtmlP <+: t3 := fenceHtmlP_prefix_cases_nl hpre
      exact ht ((fenceP_prefix_fenceHtmlP.trans h7).isInfix.trans ht3.isInfix)
  rw [hid]
  have hsplit : t ++ '\n' :: fenceP = (t ++ ['\n']) ++ fenceP := by simp
  rw [hsplit, subFence_append]
  · have hfp : subFence fenceP = [] := subFence_bt_nil
    rw [hfp, List.append_nil, strip_append_space (by decide)]
  · intro t2 ht2 hne hpre
    rcases suffix_append_cases ht2 with hy | ⟨t3, ht3, rfl⟩
    · rcases suffix_singleton hy with rfl | rfl
      · exact hne rfl
      · have : fenceP <+: ([] : Str) ++ '\n' :: fenceP := by simpa using hpre
        have h0 := fenceP_prefix_cases_nl this
        have := h0.length_le
        simp [fenceP] at this
    · have heq : (t3 ++ ['\n']) ++ fenceP = t3 ++ '\n' :: fenceP := by simp
      rw [heq] at hpre
      have h3 := fenceP_prefix_cases_nl hpre
      exact ht (h3.isInfix.trans ht3.isInfix)

/-! Characterization of the completeness checker. -/

theorem closingHtmlNl_split : closingHtmlNl = closingHtml ++ ['\n'] := by decide

theorem is_html_complete_iff (s : Str) :
    is_html_complete s = true ↔
      (closingHtml <:+: strip (lowerStr s) ∧ closingBody <:+: strip (lowerStr s) ∧
        closingHtml <:+ strip (lowerStr s)) := by
  rw [is_html_complete]
  simp only [Bool.and_eq_true, Bool.or_eq_true, isSubstr_iff, List.isSuffixOf_iff_suffix]
  constructor
  · rintro ⟨⟨h1, h2⟩, h3 | h3⟩
    · exact ⟨h1, h2, h3⟩
    · rw [closingHtmlNl_split] at h3
      exact absurd h3 (not_trailing_space_suffix_strip (by decide) _)
  · rintro ⟨h1, h2, h3⟩
    exact ⟨⟨h1, h2⟩, Or.inl h3⟩

/-! Lemmas about the continuation loop. -/

theorem contLoop_zero {gw : Gateway} {maxC : Nat} {acc : Str} {att : Nat} :
    contLoop gw maxC 0 acc att = .ok (acc, att) := rfl

theorem contLoop_succ {gw : Gateway} {maxC fuel : Nat} {acc : Str} {att : Nat} :
    contLoop gw maxC (fuel + 1) acc att =
      if is_html_complete acc then .ok (acc, att)
      else if att < maxC then
        match gw (att + 1) with
        | none => .error (att + 1)
        | some out => contLoop gw maxC fuel (acc ++ '\n' :: clean_html out) (att + 1)
      else .ok (acc, att) := by
  rw [contLoop.eq_def]

theorem contLoop_complete_run (f : Nat → Str) (N : Nat) (gw : Gateway) (hN : N ≤ 5)
    (hinc : ∀ i, i < N → is_html_complete (accAt f i) = false)
    (hcomp : is_html_complete (accAt f N) = true)
    (hgw : ∀ i, i ≤ N → gw i = some (f i)) :
    ∀ fuel k, k ≤ N → N - k < fuel →
      contLoop gw 5 fuel (accAt f k) k = .ok (accAt f N, N) := by
  intro fuel
  induction fuel with
  | zero =>
    intro k _ hlt
    omega
  | succ fuel ih =>
    intro k hk hlt
    rw [contLoop_succ]
    by_cases hkN : k = N
    · subst hkN
      rw [if_pos hcomp]
    · have hklt : k < N := lt_of_le_of_ne hk hkN
      have hik : is_html_complete (accAt f k) = false := hinc k hklt
      rw [if_neg (by simp [hik]), if_pos (by omega), hgw (k + 1) (by omega)]
      show contLoop gw 5 fuel (accAt f k ++ '\n' :: clean_html (f (k + 1))) (k + 1) = _
      have hstep : accAt f k ++ '\n' :: clean_html (f (k + 1)) = accAt f (k + 1) := rfl
      rw [hstep]
      exact ih (k + 1) (by omega) (by omega)

theorem contLoop_budget_run (f : Nat → Str) (gw : Gateway)
    (hinc : ∀ i, i ≤ 5 → is_html_complete (accAt f i) = false)
    (hgw : ∀ i, i ≤ 5 → gw i = some (f i)) :
    ∀ fuel k, k ≤ 5 → 5 - k < fuel →
      contLoop gw 5 fuel (accAt f k) k = .ok (accAt f 5, 5) := by
  intro fuel
  induction fuel with
  | zero =>
    intro k _ hlt
    omega
  | succ fuel ih =>
    intro k hk hlt
    rw [contLoop_succ]
    by_cases hk5 : k = 5
    · subst hk5
      rw [if_neg (by simp [hinc 5 (le_refl 5)]), if_neg (by omega)]
    · have hik : is_html_complete (accAt f k) = false := hinc k hk
      rw [if_neg (by simp [hik]), if_pos (by omega), hgw (k + 1) (by omega)]
      show contLoop gw 5 fuel (accAt f k ++ '\n' :: clean_html (f (k + 1))) (k + 1) = _
      have hstep : accAt f k ++ '\n' :: clean_html (f (k + 1)) = accAt f (k + 1) := rfl
      rw [hstep]
      exact ih (k + 1) (by omega) (by omega)

theorem contLoop_ok_inv (gw : Gateway) (maxC : Nat) :
    ∀ fuel (acc : Str) att t a, contLoop gw maxC fuel acc att = .ok (t, a) →
      acc.length ≤ t.length ∧ a ≤ max att maxC := by
  intro fuel
  induction fuel with
  | zero =>
    intro acc att t a h
    rw [contLoop_zero] at h
    obtain ⟨h1, h2⟩ : acc = t ∧ att = a := by
      simpa using h
    subst h1
    subst h2
    exact ⟨le_refl _, le_max_left _ _⟩
  | succ fuel ih =>
    intro acc att t a h
    rw [contLoop_succ] at h
    split_ifs at h with h1 h2
    · obtain ⟨h3, h4⟩ : acc = t ∧ att = a := by simpa using h
      subst h3
      subst h4
      exact ⟨le_refl _, le_max_left _ _⟩
    · cases hg : gw (att + 1) with
      | none =>
        rw [hg] at h
        simp at h
      | some out =>
        rw [hg] at h
        obtain ⟨hlen, hle⟩ := ih _ _ _ _ h
        constructor
        · calc acc.length ≤ (acc ++ '\n' :: clean_html out).length := by simp
            _ ≤ t.length := hlen
        · have hmax : max (att + 1) maxC = maxC := Nat.max_eq_right (by omega)
          rw [hmax] at hle
          exact le_trans hle (le_max_right _ _)
    · obtain ⟨h3, h4⟩ : acc = t ∧ att = a := by simpa using h
      subst h3
      subst h4
      exact ⟨le_refl _, le_max_left _ _⟩

theorem contLoop_error_gt (gw : Gateway) (maxC : Nat) :
    ∀ fuel (acc : Str) att j, contLoop gw maxC fuel acc att = .error j →
      att < j ∧ gw j = none := by
  intro fuel
  induction fuel with
  | zero =>
    intro acc att j h
    rw [contLoop_zero] at h
    exact Except.noConfusion h
  | succ fuel ih =>
    intro acc att j h
    rw [contLoop_succ] at h
    by_cases h1 : is_html_complete acc = true
    · rw [if_pos h1] at h
      exact Except.noConfusion h
    · rw [if_neg h1] at h
      by_cases h2 : att < maxC
      · rw [if_pos h2] at h
        cases hg : gw (att + 1) with
        | none =>
          rw [hg] at h
          have hj : att + 1 = j := by simpa using h
          subst hj
          exact ⟨by omega, hg⟩
        | some out =>
          rw [hg] at h
          obtain ⟨hgt, hnone⟩ := ih _ _ _ h
          exact ⟨by omega, hnone⟩
      · rw [if_neg h2] at h
        exact Except.noConfusion h

theorem contLoop_error_stable (gw : Gateway) (maxC : Nat) :
    ∀ fuel (acc : Str) att j, contLoop gw maxC fuel acc att = .error j →
      ∀ gw' : Gateway, (∀ i, i ≤ j → gw' i = gw i) →
        contLoop gw' maxC fuel acc att = .error j := by
  intro fuel
  induction fuel with
  | zero =>
    intro acc att j h
    rw [contLoop_zero] at h
    exact Except.noConfusion h
  | succ fuel ih =>
    intro acc att j h gw' hag
    rw [contLoop_succ] at h
    rw [contLoop_succ]
    by_cases h1 : is_html_complete acc = true
    · rw [if_pos h1] at h
      exact Except.noConfusion h
    · rw [if_neg h1] at h
      rw [if_neg h1]
      by_cases h2 : att < maxC
      · rw [if_pos h2] at h
        rw [if_pos h2]
        cases hg : gw (att + 1) with
        | none =>
          rw [hg] at h
          have hj : att + 1 = j := by simpa using h
          subst hj
          rw [hag (att + 1) (le_refl _), hg]
        | some out =>
          rw [hg] at h
          have hgt := (contLoop_error_gt gw maxC fuel _ _ _ h).1
          rw [hag (att + 1) (by omega), hg]
          exact ih _ _ _ h gw' hag
      · rw [if_neg h2] at h
        exact Except.noConfusion h

/-! Engine-level consequences of a failed gateway call. -/

theorem engine_error_none {gw : Gateway} {j : Nat} (h : engine gw = .error j) :
    gw j = none := by
  rw [engine] at h
  cases hg0 : gw 0 with
  | none =>
    rw [hg0] at h
    have hj : (Except.error 0 : Except Nat (Str × Nat)) = .error j := h
    have hj2 : (0 : Nat) = j := by injection hj
    subst hj2
    exact hg0
  | some first =>
    rw [hg0] at h
    exact (contLoop_error_gt gw 5 6 _ _ _ h).2

theorem engine_error_stable {gw : Gateway} {j : Nat} (h : engine gw = .error j)
    (gw' : Gateway) (hag : ∀ i, i ≤ j → gw' i = gw i) : engine gw' = .error j := by
  rw [engine] at h
  rw [engine]
  cases hg0 : gw 0 with
  | none =>
    rw [hg0] at h
    have hj : (Except.error 0 : Except Nat (Str × Nat)) = .error j := h
    have hj2 : (0 : Nat) = j := by injection hj
    subst hj2
    rw [hag 0 (le_refl _), hg0]
  | some first =>
    rw [hg0] at h
    have h0 := (contLoop_error_gt gw 5 6 _ _ _ h).1
    rw [hag 0 (by omega), hg0]
    exact contLoop_error_stable gw 5 6 _ _ _ h gw' hag

/-! The claim theorems. -/

/-- C1: Continuation Loop Engine call count and output shape.  If the
completeness check on the accumulated text reports incomplete at the first N
accumulator states (N ≤ 5) and complete at the N-th, then for every gateway
agreeing with the output sequence f on call indices 0..N (so the run consults
exactly those N+1 calls: the conclusion is independent of all later values),
the engine returns continuation count N and the text `accAt f N`, which is the
normalized first output followed by each of the N normalized continuation
outputs, each joined to the accumulator with exactly one newline character. -/
theorem C1_continuation_loop_calls_and_output (f : Nat → Str) (N : Nat) (hN : N ≤ 5)
    (hinc : ∀ i, i < N → is_html_complete (accAt f i) = false)
    (hcomp : is_html_complete (accAt f N) = true) :
    ∀ gw : Gateway, (∀ i, i ≤ N → gw i = some (f i)) →
      engine gw = .ok (accAt f N, N) := by
  intro gw hgw
  have hrun := contLoop_complete_run f N gw hN hinc hcomp hgw 6 0 (by omega) (by omega)
  rw [engine, hgw 0 (by omega)]
  exact hrun

/-- Witness for C1 at N = 1: a truncated first output and one completing
continuation give a two-call run. -/
theorem C1_continuation_loop_calls_and_output_witness :
    engine (fun i => some (wtOutputs i)) = .ok (accAt wtOutputs 1, 1) :=
  C1_continuation_loop_calls_and_output wtOutputs 1 (by decide) (by decide) (by decide)
    (fun i => some (wtOutputs i)) (fun i _ => rfl)

/-- C2: budget exhaustion is not an error.  If the completeness check never
reports complete, the engine runs the initial call plus all 5 continuations
(6 gateway calls, indices 0..5), then stops and returns the accumulated text
as a success value (`Except.ok`, the same constructor as a complete run, with
no incomplete marker), never an error. -/
theorem C2_budget_exhaustion_success (f : Nat → Str) (gw : Gateway)
    (hinc : ∀ i, i ≤ 5 → is_html_complete (accAt f i) = false)
    (hgw : ∀ i, i ≤ 5 → gw i = some (f i)) :
    engine gw = .ok (accAt f 5, 5) := by
  have hrun := contLoop_budget_run f gw hinc hgw 6 0 (by omega) (by omega)
  rw [engine, hgw 0 (by omega)]
  exact hrun

/-- Witness for C2: a gateway that always answers the incomplete text x. -/
theorem C2_budget_exhaustion_success_witness :
    engine (fun i => some (wtStub i)) = .ok (accAt wtStub 5, 5) :=
  C2_budget_exhaustion_success wtStub (fun i => some (wtStub i)) (by decide)
    (fun i _ => rfl)

/-- C3: ContinuationState invariant of the loop shared by the generate and
edit endpoints.  First part: at every iteration (any entry counter att and any
fuel), the accumulated text's length never decreases from loop entry to loop
exit and the counter never exceeds max att 5.  Second part: for the loop as
both endpoints enter it (counter 0, maximum 5, fuel 6), the final counter is
at most 5 — the loop terminates after at most 5 iterations for every sequence
of gateway outputs (contLoop is a total function). -/
theorem C3_continuation_state_invariant :
    (∀ (gw : Gateway) (fuel : Nat) (acc : Str) (att : Nat) (t : Str) (a : Nat),
        contLoop gw 5 fuel acc att = .ok (t, a) →
        acc.length ≤ t.length ∧ a ≤ max att 5) ∧
    (∀ (gw : Gateway) (acc t : Str) (a : Nat),
        contLoop gw 5 6 acc 0 = .ok (t, a) →
        acc.length ≤ t.length ∧ a ≤ 5) := by
  constructor
  · intro gw fuel acc att t a h
    exact contLoop_ok_inv gw 5 fuel acc att t a h
  · intro gw acc t a h
    obtain ⟨h1, h2⟩ := contLoop_ok_inv gw 5 6 acc 0 t a h
    exact ⟨h1, by simpa using h2⟩

/-- Witness for C3: a run that exhausts the budget from the empty accumulator
keeps the length non-decreasing and stops with counter 5. -/
theorem C3_continuation_state_invariant_witness :
    ([] : Str).length ≤ ("\nx\nx\nx\nx\nx".data).length ∧ 5 ≤ 5 :=
  C3_continuation_state_invariant.2 (fun i => some (wtStub i)) []
    ("\nx\nx\nx\nx\nx".data) 5 rfl

/-- C5: provider-failure atomicity of generate.  If any gateway call of the
run raises (the engine yields an error), the endpoint answers HTTP 500 with
the store exactly as it was (no partial result, nothing written); moreover the
failing call index j satisfies gw j = none, and the engine's behaviour is
unchanged under any gateway agreeing on calls 0..j — no call after the failing
one is consulted, so no further continuation attempt is made. -/
theorem C5_provider_failure_atomicity (gw : Gateway) (store : Store) (name : Str)
    (hfail : ∃ j, engine gw = .error j) :
    generate_design_system gw store name = (store, .error 500) ∧
    ∀ j, engine gw = .error j → gw j = none ∧
      ∀ gw' : Gateway, (∀ i, i ≤ j → gw' i = gw i) → engine gw' = .error j := by
  refine ⟨?_, fun j hj =>
    ⟨engine_error_none hj, fun gw' hag => engine_error_stable hj gw' hag⟩⟩
  obtain ⟨j, hj⟩ := hfail
  simp only [generate_design_system, hj]

/-- Witness for C5: a gateway whose very first call raises leaves the store
untouched and produces HTTP 500. -/
theorem C5_provider_failure_atomicity_witness :
    generate_design_system (fun _ => none) wtStore ("x".data) = (wtStore, .error 500) :=
  (C5_provider_failure_atomicity (fun _ => none) wtStore ("x".data) ⟨0, rfl⟩).1

/-- C4: Completeness Checker characterization.  For every string s,
is_html_complete s is true exactly when the lower-cased, whitespace-trimmed
form of s contains the closing root tag, contains the closing body tag, and
ends exactly with the closing root tag (the source's second endswith disjunct,
a trailing newline after the root tag, can never hold on a trimmed string).
Consequently a string missing either closing tag yields false, and a string
with the closing root tag only in the middle yields false even when both tags
are present. -/
theorem C4_is_html_complete_characterization (s : Str) :
    is_html_complete s = true ↔
      (closingHtml <:+: strip (lowerStr s) ∧ closingBody <:+: strip (lowerStr s) ∧
        closingHtml <:+ strip (lowerStr s)) :=
  is_html_complete_iff s

/-- C6: Text Normalizer idempotence and round-trip, for the identical
clean_html implementations of both source files: normalizing twice equals
normalizing once; the showcase copy agrees with the main one; and wrapping any
fence-marker-free text t in a tagged fence (opener, newline, t, newline,
closer) normalizes to t with leading and trailing whitespace trimmed. -/
theorem C6_clean_html_idempotence_roundtrip :
    (∀ s : Str, clean_html (clean_html s) = clean_html s) ∧
    (∀ s : Str, showcase_clean_html s = clean_html s) ∧
    (∀ t : Str, ¬ fenceP <:+: t →
      clean_html (fenceHtmlP ++ '\n' :: (t ++ '\n' :: fenceP)) = strip t) :=
  ⟨clean_html_idem, fun _ => rfl, fun _ ht => clean_html_roundtrip ht⟩

/-- Witness for C6 round-trip at a concrete marker-free inner text. -/
theorem C6_clean_html_idempotence_roundtrip_witness :
    ¬ fenceP <:+: ("<p>hi</p>".data) ∧
    clean_html (fenceHtmlP ++ '\n' :: (("<p>hi</p>".data) ++ '\n' :: fenceP)) =
      strip ("<p>hi</p>".data) :=
  ⟨by decide, C6_clean_html_idempotence_roundtrip.2.2 ("<p>hi</p>".data) (by decide)⟩

/-- C7 counterexample: the claim's final case states that a text containing
no fence marker is returned unchanged, but clean_html trims whitespace in
every branch: the marker-free input consisting of a space, the letter a and a
space comes back as the single letter a. -/
theorem C7_clean_html_cases_counterexample :
    ¬ fenceP <:+: (" a ".data) ∧ clean_html (" a ".data) ≠ " a ".data := by
  decide

/-- C7 amended: the branch analysis holds once trimming is accounted for.  A
text with no bare fence marker (hence no tagged opener either) is returned
with only its leading and trailing whitespace trimmed; and in every branch all
fence markers anywhere in the text are removed — no bare marker (so no tagged
one either) ever survives in the output. -/
theorem C7_clean_html_cases_amended (s : Str) :
    (¬ fenceP <:+: s → clean_html s = strip s) ∧ ¬ fenceP <:+: clean_html s :=
  ⟨fun h => clean_html_of_no_fence h, clean_html_no_fence s⟩

/-- Witness for C7 amended at a marker-free input and at an input with a bare
marker. -/
theorem C7_clean_html_cases_amended_witness :
    clean_html (" a ".data) = strip (" a ".data) ∧
      ¬ fenceP <:+: clean_html ("x```y".data) :=
  ⟨(C7_clean_html_cases_amended (" a ".data)).1 (by decide),
   (C7_clean_html_cases_amended ("x```y".data)).2⟩

/-- C8: delete endpoint error behaviour.  A name containing a slash, a
backslash or a parent-directory sequence is rejected with 400 before the store
is consulted; otherwise an absent file gives 404; otherwise the file is
removed, the same file name is answered, and a subsequent read of that name
finds nothing. -/
theorem C8_delete_error_behavior (store : Store) (name : Str) :
    (invalid_file_name name = true →
      delete_design_system store name = (store, .error 400)) ∧
    (invalid_file_name name = false → store name = none →
      delete_design_system store name = (store, .error 404)) ∧
    (invalid_file_name name = false → ∀ b, store name = some b →
      delete_design_system store name = (update store name none, .ok name) ∧
        update store name none name = none) := by
  refine ⟨fun hbad => ?_, fun hok habs => ?_, fun hok b hpres => ?_⟩
  · rw [delete_design_system, if_pos hbad]
  · rw [delete_design_system, if_neg (by simp [hok]), if_pos (by simp [habs])]
  · rw [delete_design_system, if_neg (by simp [hok]), if_neg (by simp [hpres])]
    exact ⟨rfl, by simp [update]⟩

/-- Witness for C8: the two traversal names from the spec are rejected with
400, a missing file gives 404, and deleting the present file succeeds with a
read of the name finding nothing afterwards. -/
theorem C8_delete_error_behavior_witness :
    delete_design_system wtStore ("../../etc/passwd".data) = (wtStore, .error 400) ∧
    delete_design_system wtStore ("a/b.html".data) = (wtStore, .error 400) ∧
    delete_design_system wtStore ("missing.html".data) = (wtStore, .error 404) ∧
    (delete_design_system wtStore ("a.html".data) =
        (update wtStore ("a.html".data) none, .ok ("a.html".data)) ∧
      update wtStore ("a.html".data) none ("a.html".data) = none) :=
  ⟨(C8_delete_error_behavior wtStore _).1 (by decide),
   (C8_delete_error_behavior wtStore _).1 (by decide),
   (C8_delete_error_behavior wtStore _).2.1 (by decide) rfl,
   (C8_delete_error_behavior wtStore _).2.2 (by decide) ("<html>".data) rfl⟩

/-- C9: edit endpoint error behaviour.  The edit operation answers 404 exactly
when the target file is absent; in that case nothing else happens — the store
is returned unchanged and the gateway is never consulted (the result is the
same for every gateway).  The edit path applies no name validation, so no file
name is ever rejected with 400. -/
theorem C9_edit_error_behavior (gw : Gateway) (store : Store) (fileName : Str) :
    ((edit_design_system gw store fileName).2 = .error 404 ↔ store fileName = none) ∧
    (store fileName = none →
      edit_design_system gw store fileName = (store, .error 404)) ∧
    (edit_design_system gw store fileName).2 ≠ .error 400 := by
  cases hs : store fileName with
  | none =>
    refine ⟨?_, fun _ => ?_, ?_⟩
    · simp [edit_design_system, hs]
    · simp [edit_design_system, hs]
    · simp [edit_design_system, hs]
  | some b =>
    cases he : engine gw with
    | error j =>
      refine ⟨?_, fun habs => absurd habs (by simp [hs]), ?_⟩
      · simp [edit_design_system, hs, he]
      · simp [edit_design_system, hs, he]
    | ok p =>
      obtain ⟨txt, a⟩ := p
      refine ⟨?_, fun habs => absurd habs (by simp [hs]), ?_⟩
      · simp [edit_design_system, hs, he]
      · simp [edit_design_system, hs, he]

/-- Witness for C9: with a file present under a traversal-style name, editing
it is not rejected with 400, and editing an absent name gives 404 with the
store unchanged. -/
theorem C9_edit_error_behavior_witness :
    edit_design_system wtGwComplete wtStoreEvil ("nope.html".data) =
      (wtStoreEvil, .error 404) ∧
    (edit_design_system wtGwComplete wtStoreEvil ("../evil".data)).2 ≠ .error 400 :=
  ⟨(C9_edit_error_behavior wtGwComplete wtStoreEvil ("nope.html".data)).2.1 rfl,
   (C9_edit_error_behavior wtGwComplete wtStoreEvil ("../evil".data)).2.2⟩

/-- C10: filename derivation.  Whenever the engine run succeeds, the generate
endpoint writes the produced text into the flat store under
derive_file_name name — the display name lower-cased with every space replaced
by a hyphen, suffixed ".html" — answers that same file name, and a read of the
derived name from the updated store yields the written body. -/
theorem C10_filename_derivation (gw : Gateway) (store : Store) (name txt : Str)
    (a : Nat) (h : engine gw = .ok (txt, a)) :
    generate_design_system gw store name =
      (update store (derive_file_name name) (some txt),
        .ok (derive_file_name name, txt)) ∧
    update store (derive_file_name name) (some txt) (derive_file_name name) = some txt ∧
    derive_file_name name =
      (lowerStr name).map (fun c => if c = ' ' then '-' else c) ++ ".html".data := by
  refine ⟨?_, ?_, rfl⟩
  · simp only [generate_design_system, h]
  · simp [update]

/-- Witness for C10: generating under the display name My Theme writes the
file my-theme.html. -/
theorem C10_filename_derivation_witness :
    generate_design_system wtGwComplete wtStore ("My Theme".data) =
      (update wtStore ("my-theme.html".data)
          (some ("<html><body>ok</body></html>".data)),
        .ok ("my-theme.html".data, "<html><body>ok</body></html>".data)) := by
  have h := (C10_filename_derivation wtGwComplete wtStore ("My Theme".data)
      ("<html><body>ok</body></html>".data) 0 rfl).1
  have hd : derive_file_name ("My Theme".data) = "my-theme.html".data := by decide
  rw [hd] at h
  exact h

end IDS
